import Mathlib

/-!
Verification development for the rnn-exploration repository.

The repository's notebooks (demo.ipynb, the sentiment-analysis notebook)
use custom recurrent cells (LSTMCell from lstm_cell, the custom GRU
inside GRU_Sentiment_Analysis from models); those module files are not
part of the sources available here, so the cell mathematics is modelled
from the specification (section 4 of spec.md).  The data-generation and
evaluation code of demo.ipynb (binary-counting targets, the sine-wave
signal) is present and embedded directly from that source.

Vectors are total functions `Fin n → ℝ`; the gate weights map the
concatenated vector [x_t, h_{t-1}] (length I + H) to a gate-sized vector,
exactly as the spec's GateWeights data model describes.
-/

namespace RnnExploration

open Real Filter

/-- Concatenation [x, h] of an input vector (length I) and a hidden-state
vector (length H) into a single vector of length I + H. -/
def concatVec {I H : ℕ} (x : Fin I → ℝ) (h : Fin H → ℝ) : Fin (I + H) → ℝ :=
  fun k => Fin.addCases (motive := fun _ => ℝ) x h k

/-- Modelled from the spec: the logistic sigmoid used by every gate,
sigmoid(t) = 1 / (1 + exp (-t)). -/
noncomputable def sigmoid (t : ℝ) : ℝ := 1 / (1 + Real.exp (-t))

/-- Modelled from the spec: one gate's learned parameters — a weight matrix
mapping the concatenated [input, previous hidden] vector to a gate-sized
vector, and a bias vector (spec.md section 3, GateWeights). -/
structure GateW (I H : ℕ) where
  W : Fin H → Fin (I + H) → ℝ
  b : Fin H → ℝ

/-- Affine pre-activation of one gate: W·[x_t, h_{t-1}] + b, componentwise. -/
def affinePre {I H : ℕ} (g : GateW I H) (x : Fin I → ℝ) (h : Fin H → ℝ) :
    Fin H → ℝ :=
  fun j => (∑ k, g.W j k * concatVec x h k) + g.b j

/-- Modelled from the spec: LSTM forget gate f_t = sigmoid(W_f·[x_t,h_{t-1}] + b_f). -/
noncomputable def forgetGate {I H : ℕ} (Wf : GateW I H) (x : Fin I → ℝ)
    (h : Fin H → ℝ) : Fin H → ℝ :=
  fun j => sigmoid (affinePre Wf x h j)

/-- Modelled from the spec: LSTM input gate i_t = sigmoid(W_i·[x_t,h_{t-1}] + b_i). -/
noncomputable def inputGate {I H : ℕ} (Wi : GateW I H) (x : Fin I → ℝ)
    (h : Fin H → ℝ) : Fin H → ℝ :=
  fun j => sigmoid (affinePre Wi x h j)

/-- Modelled from the spec: LSTM output gate o_t = sigmoid(W_o·[x_t,h_{t-1}] + b_o). -/
noncomputable def outputGate {I H : ℕ} (Wo : GateW I H) (x : Fin I → ℝ)
    (h : Fin H → ℝ) : Fin H → ℝ :=
  fun j => sigmoid (affinePre Wo x h j)

/-- Modelled from the spec: LSTM candidate cell value
c̃_t = tanh(W_c·[x_t,h_{t-1}] + b_c). -/
noncomputable def cellCandidate {I H : ℕ} (Wc : GateW I H) (x : Fin I → ℝ)
    (h : Fin H → ℝ) : Fin H → ℝ :=
  fun j => Real.tanh (affinePre Wc x h j)

/-- Modelled from the spec: the LSTM cell-state update
c_t = f_t ⊙ c_{t-1} + i_t ⊙ c̃_t (elementwise). -/
def lstmStateUpdate {H : ℕ} (f i c ctil : Fin H → ℝ) : Fin H → ℝ :=
  fun j => f j * c j + i j * ctil j

/-- Modelled from the spec: the full LSTM cell (spec.md 4.1).  Given input
x_t, previous hidden h_{t-1} and previous cell c_{t-1} plus the four gate
weight sets, returns the pair (h_t, c_t) with
c_t = f_t ⊙ c_{t-1} + i_t ⊙ c̃_t and h_t = o_t ⊙ tanh(c_t).
The original implementation (lstm_cell.LSTMCell) is imported by
demo.ipynb but absent from the available sources. -/
noncomputable def lstmCell {I H : ℕ} (Wf Wi Wo Wc : GateW I H)
    (x : Fin I → ℝ) (h c : Fin H → ℝ) : (Fin H → ℝ) × (Fin H → ℝ) :=
  let cNew := lstmStateUpdate (forgetGate Wf x h) (inputGate Wi x h) c
    (cellCandidate Wc x h)
  (fun j => outputGate Wo x h j * Real.tanh (cNew j), cNew)

/-- Modelled from the spec: GRU reset gate r_t = sigmoid(W_r·[x_t,h_{t-1}] + b_r). -/
noncomputable def resetGate {I H : ℕ} (Wr : GateW I H) (x : Fin I → ℝ)
    (h : Fin H → ℝ) : Fin H → ℝ :=
  fun j => sigmoid (affinePre Wr x h j)

/-- Modelled from the spec: GRU update gate z_t = sigmoid(W_z·[x_t,h_{t-1}] + b_z). -/
noncomputable def updateGate {I H : ℕ} (Wz : GateW I H) (x : Fin I → ℝ)
    (h : Fin H → ℝ) : Fin H → ℝ :=
  fun j => sigmoid (affinePre Wz x h j)

/-- Modelled from the spec: GRU candidate h̃_t = tanh(W_h·[x_t, r_t⊙h_{t-1}] + b_h);
the reset gate multiplies the previous hidden state before the candidate's
affine map. -/
noncomputable def gruCandidate {I H : ℕ} (Wr Wh : GateW I H) (x : Fin I → ℝ)
    (h : Fin H → ℝ) : Fin H → ℝ :=
  fun j => Real.tanh (affinePre Wh x (fun m => resetGate Wr x h m * h m) j)

/-- Modelled from the spec: the GRU hidden-state interpolation
h_t = (1 - z_t) ⊙ h_{t-1} + z_t ⊙ h̃_t. -/
def gruStateUpdate {H : ℕ} (z h hc : Fin H → ℝ) : Fin H → ℝ :=
  fun j => (1 - z j) * h j + z j * hc j

/-- Modelled from the spec: the full GRU cell (spec.md 4.2).  Returns the
new hidden state only (no cell state).  The original implementation (the
custom cell inside models.GRU_Sentiment_Analysis) is imported by the
sentiment-analysis notebook but absent from the available sources. -/
noncomputable def gruCell {I H : ℕ} (Wr Wz Wh : GateW I H)
    (x : Fin I → ℝ) (h : Fin H → ℝ) : Fin H → ℝ :=
  gruStateUpdate (updateGate Wz x h) h (gruCandidate Wr Wh x h)

theorem sigmoid_tendsto_zero (S : ℝ) :
    Tendsto (fun B : ℝ => sigmoid (S - B)) atTop (nhds 0) := by
  have h1 : Tendsto (fun B : ℝ => B - S) atTop atTop := by
    simpa [sub_eq_add_neg] using
      tendsto_atTop_add_const_right atTop (-S) (tendsto_id (α := ℝ))
  have h2 : Tendsto (fun B : ℝ => 1 + Real.exp (B - S)) atTop atTop :=
    tendsto_atTop_add_const_left atTop 1 (Real.tendsto_exp_atTop.comp h1)
  have h3 : Tendsto (fun B : ℝ => (1 + Real.exp (B - S))⁻¹) atTop (nhds 0) :=
    h2.inv_tendsto_atTop
  refine h3.congr fun B => ?_
  simp [sigmoid, neg_sub, one_div]

theorem sigmoid_tendsto_one (S : ℝ) :
    Tendsto (fun B : ℝ => sigmoid (S + B)) atTop (nhds 1) := by
  have h0 : Tendsto (fun B : ℝ => B + S) atTop atTop :=
    tendsto_atTop_add_const_right atTop S (tendsto_id (α := ℝ))
  have h1 : Tendsto (fun B : ℝ => -S - B) atTop atBot := by
    have := tendsto_neg_atTop_atBot.comp h0
    refine this.congr fun B => ?_
    simp [Function.comp]
    ring
  have h2 : Tendsto (fun B : ℝ => Real.exp (-S - B)) atTop (nhds 0) :=
    Real.tendsto_exp_atBot.comp h1
  have h3 : Tendsto (fun B : ℝ => 1 + Real.exp (-S - B)) atTop (nhds 1) := by
    simpa using tendsto_const_nhds.add h2
  have h4 : Tendsto (fun B : ℝ => (1 + Real.exp (-S - B))⁻¹) atTop (nhds 1) := by
    simpa using h3.inv₀ (by norm_num)
  refine h4.congr fun B => ?_
  simp [sigmoid, one_div]
  ring_nf

/-- C1: for every input vector x_t of size I, previous hidden state h_{t-1}
and previous cell state c_{t-1} of size H, and four gate weight sets, the
LSTM cell returns the pair (h_t, c_t) with
c_t = f_t ⊙ c_{t-1} + i_t ⊙ c̃_t and h_t = o_t ⊙ tanh(c_t), where
f_t, i_t, o_t are sigmoid-activated affine maps of [x_t,h_{t-1}] with their
respective weights and biases and c̃_t = tanh(W_c·[x_t,h_{t-1}] + b_c). -/
theorem lstm_cell_contract {I H : ℕ} (Wf Wi Wo Wc : GateW I H)
    (x : Fin I → ℝ) (h c : Fin H → ℝ) (j : Fin H) :
    (lstmCell Wf Wi Wo Wc x h c).2 j =
      sigmoid ((∑ k, Wf.W j k * concatVec x h k) + Wf.b j) * c j
        + sigmoid ((∑ k, Wi.W j k * concatVec x h k) + Wi.b j)
          * Real.tanh ((∑ k, Wc.W j k * concatVec x h k) + Wc.b j)
    ∧ (lstmCell Wf Wi Wo Wc x h c).1 j =
      sigmoid ((∑ k, Wo.W j k * concatVec x h k) + Wo.b j)
        * Real.tanh ((lstmCell Wf Wi Wo Wc x h c).2 j) :=
  ⟨rfl, rfl⟩

/-- C2: for every input vector x_t, previous hidden state h_{t-1}, and three
gate weight sets, the GRU cell returns only the new hidden state
h_t = (1 - z_t) ⊙ h_{t-1} + z_t ⊙ h̃_t, where z_t and r_t are
sigmoid-activated affine maps of [x_t,h_{t-1}] and the candidate is
h̃_t = tanh(W_h·[x_t, r_t⊙h_{t-1}] + b_h): the reset gate multiplies
h_{t-1} before the candidate's affine map.  (That only h_t is returned is
visible in the result type of gruCell: a single vector, no cell state.) -/
theorem gru_cell_contract {I H : ℕ} (Wr Wz Wh : GateW I H)
    (x : Fin I → ℝ) (h : Fin H → ℝ) (j : Fin H) :
    gruCell Wr Wz Wh x h j =
      (1 - sigmoid ((∑ k, Wz.W j k * concatVec x h k) + Wz.b j)) * h j
        + sigmoid ((∑ k, Wz.W j k * concatVec x h k) + Wz.b j)
          * Real.tanh ((∑ k, Wh.W j k * concatVec x
              (fun m => sigmoid ((∑ n, Wr.W m n * concatVec x h n) + Wr.b m) * h m) k)
            + Wh.b j) :=
  rfl

/-- C6: the cell computation is deterministic — for fixed weights, input and
previous state, two invocations of the LSTM or GRU cell with identical
arguments yield identical outputs; the cells are pure functions of their
arguments with no hidden state or randomness. -/
theorem cell_deterministic {I H : ℕ}
    (Wf Wi Wo Wc Wf2 Wi2 Wo2 Wc2 : GateW I H) (x x2 : Fin I → ℝ)
    (h c h2 c2 : Fin H → ℝ)
    (Wr Wz Wg Wr2 Wz2 Wg2 : GateW I H) (xg xg2 : Fin I → ℝ) (hg hg2 : Fin H → ℝ)
    (e1 : Wf = Wf2) (e2 : Wi = Wi2) (e3 : Wo = Wo2) (e4 : Wc = Wc2)
    (e5 : x = x2) (e6 : h = h2) (e7 : c = c2)
    (e8 : Wr = Wr2) (e9 : Wz = Wz2) (e10 : Wg = Wg2)
    (e11 : xg = xg2) (e12 : hg = hg2) :
    lstmCell Wf Wi Wo Wc x h c = lstmCell Wf2 Wi2 Wo2 Wc2 x2 h2 c2
      ∧ gruCell Wr Wz Wg xg hg = gruCell Wr2 Wz2 Wg2 xg2 hg2 := by
  subst e1 e2 e3 e4 e5 e6 e7 e8 e9 e10 e11 e12
  exact ⟨rfl, rfl⟩

theorem cell_deterministic_witness :
    @lstmCell 1 1 ⟨fun _ _ => 0, fun _ => 0⟩ ⟨fun _ _ => 0, fun _ => 0⟩
        ⟨fun _ _ => 0, fun _ => 0⟩ ⟨fun _ _ => 0, fun _ => 0⟩
        (fun _ => 0) (fun _ => 0) (fun _ => 0)
      = @lstmCell 1 1 ⟨fun _ _ => 0, fun _ => 0⟩ ⟨fun _ _ => 0, fun _ => 0⟩
        ⟨fun _ _ => 0, fun _ => 0⟩ ⟨fun _ _ => 0, fun _ => 0⟩
        (fun _ => 0) (fun _ => 0) (fun _ => 0)
    ∧ @gruCell 1 1 ⟨fun _ _ => 0, fun _ => 0⟩ ⟨fun _ _ => 0, fun _ => 0⟩
        ⟨fun _ _ => 0, fun _ => 0⟩ (fun _ => 0) (fun _ => 0)
      = @gruCell 1 1 ⟨fun _ _ => 0, fun _ => 0⟩ ⟨fun _ _ => 0, fun _ => 0⟩
        ⟨fun _ _ => 0, fun _ => 0⟩ (fun _ => 0) (fun _ => 0) :=
  cell_deterministic _ _ _ _ _ _ _ _ _ _ _ _ _ _ _ _ _ _ _ _ _ _ _ _
    rfl rfl rfl rfl rfl rfl rfl rfl rfl rfl rfl rfl

/-- C3: for the GRU cell, a zero update gate yields pure retention
(h_t = h_{t-1} exactly) and a saturated update gate yields the candidate
(h_t = h̃_t exactly); and driving the update gate there through its bias
(b_z = -B resp. b_z = B, B → ∞) drives the cell output to the previous
hidden state resp. to the candidate h̃_t. -/
theorem gru_update_gate_extremes :
    (∀ (H : ℕ) (h hc : Fin H → ℝ), gruStateUpdate (fun _ => 0) h hc = h)
    ∧ (∀ (H : ℕ) (h hc : Fin H → ℝ), gruStateUpdate (fun _ => 1) h hc = hc)
    ∧ (∀ (I H : ℕ) (Wr Wh : GateW I H) (Wzw : Fin H → Fin (I + H) → ℝ)
        (x : Fin I → ℝ) (h : Fin H → ℝ) (j : Fin H),
        Tendsto (fun B : ℝ => gruCell Wr ⟨Wzw, fun _ => -B⟩ Wh x h j) atTop
          (nhds (h j)))
    ∧ (∀ (I H : ℕ) (Wr Wh : GateW I H) (Wzw : Fin H → Fin (I + H) → ℝ)
        (x : Fin I → ℝ) (h : Fin H → ℝ) (j : Fin H),
        Tendsto (fun B : ℝ => gruCell Wr ⟨Wzw, fun _ => B⟩ Wh x h j) atTop
          (nhds (gruCandidate Wr Wh x h j))) := by
  refine ⟨?_, ?_, ?_, ?_⟩
  · intro H h hc
    funext j
    simp [gruStateUpdate]
  · intro H h hc
    funext j
    simp [gruStateUpdate]
  · intro I H Wr Wh Wzw x h j
    have hz := sigmoid_tendsto_zero (∑ k, Wzw j k * concatVec x h k)
    have hmain : Tendsto (fun B : ℝ =>
        (1 - sigmoid ((∑ k, Wzw j k * concatVec x h k) - B)) * h j
          + sigmoid ((∑ k, Wzw j k * concatVec x h k) - B)
            * gruCandidate Wr Wh x h j) atTop
        (nhds ((1 - 0) * h j + 0 * gruCandidate Wr Wh x h j)) :=
      ((tendsto_const_nhds.sub hz).mul tendsto_const_nhds).add
        (hz.mul tendsto_const_nhds)
    have heq : ∀ B : ℝ,
        (1 - sigmoid ((∑ k, Wzw j k * concatVec x h k) - B)) * h j
          + sigmoid ((∑ k, Wzw j k * concatVec x h k) - B)
            * gruCandidate Wr Wh x h j
        = gruCell Wr ⟨Wzw, fun _ => -B⟩ Wh x h j := by
      intro B
      simp [gruCell, gruStateUpdate, updateGate, affinePre, sub_eq_add_neg]
    have := hmain.congr heq
    simpa using this
  · intro I H Wr Wh Wzw x h j
    have hz := sigmoid_tendsto_one (∑ k, Wzw j k * concatVec x h k)
    have hmain : Tendsto (fun B : ℝ =>
        (1 - sigmoid ((∑ k, Wzw j k * concatVec x h k) + B)) * h j
          + sigmoid ((∑ k, Wzw j k * concatVec x h k) + B)
            * gruCandidate Wr Wh x h j) atTop
        (nhds ((1 - 1) * h j + 1 * gruCandidate Wr Wh x h j)) :=
      ((tendsto_const_nhds.sub hz).mul tendsto_const_nhds).add
        (hz.mul tendsto_const_nhds)
    have heq : ∀ B : ℝ,
        (1 - sigmoid ((∑ k, Wzw j k * concatVec x h k) + B)) * h j
          + sigmoid ((∑ k, Wzw j k * concatVec x h k) + B)
            * gruCandidate Wr Wh x h j
        = gruCell Wr ⟨Wzw, fun _ => B⟩ Wh x h j := by
      intro B
      simp [gruCell, gruStateUpdate, updateGate, affinePre]
    have := hmain.congr heq
    simpa using this

/-- C4: for the LSTM cell with all-zero input and all-zero weights and
biases, except a forget-gate bias B driving f_t→1 and an input-gate bias
-B driving i_t→0, the new cell state tends to the previous cell state
c_{t-1} as B → ∞ (pure memory retention, for every previous cell state);
and exactly at the gate extremes f_t = 1, i_t = 0 the cell-state update
returns c_{t-1} unchanged. -/
theorem lstm_memory_retention :
    (∀ (H : ℕ) (c ctil : Fin H → ℝ),
        lstmStateUpdate (fun _ => 1) (fun _ => 0) c ctil = c)
    ∧ (∀ (H : ℕ) (h c : Fin H → ℝ) (j : Fin H),
        Tendsto (fun B : ℝ =>
          (@lstmCell H H ⟨fun _ _ => 0, fun _ => B⟩ ⟨fun _ _ => 0, fun _ => -B⟩
            ⟨fun _ _ => 0, fun _ => 0⟩ ⟨fun _ _ => 0, fun _ => 0⟩
            (fun _ => 0) h c).2 j) atTop (nhds (c j))) := by
  constructor
  · intro H c ctil
    funext j
    simp [lstmStateUpdate]
  · intro H h c j
    have hf := sigmoid_tendsto_one 0
    have hmain : Tendsto (fun B : ℝ => sigmoid (0 + B) * c j) atTop
        (nhds (1 * c j)) := hf.mul tendsto_const_nhds
    have heq : ∀ B : ℝ, sigmoid (0 + B) * c j
        = (@lstmCell H H ⟨fun _ _ => 0, fun _ => B⟩ ⟨fun _ _ => 0, fun _ => -B⟩
            ⟨fun _ _ => 0, fun _ => 0⟩ ⟨fun _ _ => 0, fun _ => 0⟩
            (fun _ => 0) h c).2 j := by
      intro B
      simp [lstmCell, lstmStateUpdate, forgetGate, inputGate, cellCandidate,
        affinePre]
    have := hmain.congr heq
    simpa using this

theorem sigmoid_pos (t : ℝ) : 0 < sigmoid t := by
  have hd : 0 < 1 + Real.exp (-t) := by positivity
  exact div_pos one_pos hd

theorem sigmoid_lt_one (t : ℝ) : sigmoid t < 1 := by
  have hd : 0 < 1 + Real.exp (-t) := by positivity
  rw [sigmoid, div_lt_one hd]
  have := Real.exp_pos (-t)
  linarith

theorem tanh_lt_one (t : ℝ) : Real.tanh t < 1 := by
  rw [Real.tanh_eq_sinh_div_cosh, div_lt_one (Real.cosh_pos t)]
  have h1 := Real.cosh_sub_sinh t
  have h2 := Real.exp_pos (-t)
  linarith

theorem neg_one_lt_tanh (t : ℝ) : -1 < Real.tanh t := by
  rw [Real.tanh_eq_sinh_div_cosh, lt_div_iff₀ (Real.cosh_pos t)]
  have h1 := Real.cosh_add_sinh t
  have h2 := Real.exp_pos t
  linarith

/-- Counterexample to C7: with all-zero weights and biases, zero input and
previous hidden state h_{t-1} = 2, the GRU's new hidden state equals
(1 - 1/2)·2 + (1/2)·0 = 1, which does not lie strictly below 1 — so a
hidden-state value need not lie in the open interval (-1, 1) when the
previous state is arbitrary. -/
theorem gru_hidden_escapes_interval :
    @gruCell 1 1 ⟨fun _ _ => 0, fun _ => 0⟩ ⟨fun _ _ => 0, fun _ => 0⟩
        ⟨fun _ _ => 0, fun _ => 0⟩ (fun _ => 0) (fun _ => 2) 0 = 1
    ∧ ¬ (@gruCell 1 1 ⟨fun _ _ => 0, fun _ => 0⟩ ⟨fun _ _ => 0, fun _ => 0⟩
        ⟨fun _ _ => 0, fun _ => 0⟩ (fun _ => 0) (fun _ => 2) 0 < 1) := by
  have hval : @gruCell 1 1 ⟨fun _ _ => 0, fun _ => 0⟩ ⟨fun _ _ => 0, fun _ => 0⟩
      ⟨fun _ _ => 0, fun _ => 0⟩ (fun _ => 0) (fun _ => 2) 0 = 1 := by
    simp [gruCell, gruStateUpdate, updateGate, gruCandidate, resetGate,
      affinePre, sigmoid, Real.exp_zero]
    norm_num
  exact ⟨hval, by rw [hval]; exact lt_irrefl 1⟩

/-- C7 (amended): every sigmoid-activated gate output lies strictly in
(0, 1) componentwise, every tanh-activated candidate lies strictly in
(-1, 1), and the LSTM hidden state lies strictly in (-1, 1); the GRU hidden
state lies strictly in (-1, 1) provided the previous hidden state lies in
[-1, 1] componentwise (as it does for the usual zero initialization and,
inductively, at every later time step) — without that proviso it can reach
1 or beyond, as the counterexample shows. -/
theorem gate_and_state_ranges {I H : ℕ} (Wf Wi Wo Wc Wr Wz Wh : GateW I H)
    (x : Fin I → ℝ) (h c : Fin H → ℝ) (j : Fin H) :
    (0 < forgetGate Wf x h j ∧ forgetGate Wf x h j < 1)
    ∧ (0 < inputGate Wi x h j ∧ inputGate Wi x h j < 1)
    ∧ (0 < outputGate Wo x h j ∧ outputGate Wo x h j < 1)
    ∧ (0 < resetGate Wr x h j ∧ resetGate Wr x h j < 1)
    ∧ (0 < updateGate Wz x h j ∧ updateGate Wz x h j < 1)
    ∧ (-1 < cellCandidate Wc x h j ∧ cellCandidate Wc x h j < 1)
    ∧ (-1 < gruCandidate Wr Wh x h j ∧ gruCandidate Wr Wh x h j < 1)
    ∧ (-1 < (lstmCell Wf Wi Wo Wc x h c).1 j
        ∧ (lstmCell Wf Wi Wo Wc x h c).1 j < 1)
    ∧ ((∀ m, |h m| ≤ 1) →
        -1 < gruCell Wr Wz Wh x h j ∧ gruCell Wr Wz Wh x h j < 1) := by
  refine ⟨⟨sigmoid_pos _, sigmoid_lt_one _⟩, ⟨sigmoid_pos _, sigmoid_lt_one _⟩,
    ⟨sigmoid_pos _, sigmoid_lt_one _⟩, ⟨sigmoid_pos _, sigmoid_lt_one _⟩,
    ⟨sigmoid_pos _, sigmoid_lt_one _⟩, ⟨neg_one_lt_tanh _, tanh_lt_one _⟩,
    ⟨neg_one_lt_tanh _, tanh_lt_one _⟩, ?_, ?_⟩
  · have ho1 : 0 < outputGate Wo x h j := sigmoid_pos _
    have ho2 : outputGate Wo x h j < 1 := sigmoid_lt_one _
    set t := Real.tanh (lstmStateUpdate (forgetGate Wf x h) (inputGate Wi x h)
      c (cellCandidate Wc x h) j) with ht
    have ht1 : -1 < t := neg_one_lt_tanh _
    have ht2 : t < 1 := tanh_lt_one _
    have hgoal : (lstmCell Wf Wi Wo Wc x h c).1 j = outputGate Wo x h j * t :=
      rfl
    rw [hgoal]
    constructor
    · nlinarith [mul_pos ho1 (by linarith : (0:ℝ) < 1 + t)]
    · nlinarith [mul_pos ho1 (by linarith : (0:ℝ) < 1 - t)]
  · intro hbound
    have hz1 : 0 < updateGate Wz x h j := sigmoid_pos _
    have hz2 : updateGate Wz x h j < 1 := sigmoid_lt_one _
    have hc1 : -1 < gruCandidate Wr Wh x h j := neg_one_lt_tanh _
    have hc2 : gruCandidate Wr Wh x h j < 1 := tanh_lt_one _
    have hh := abs_le.mp (hbound j)
    have hgoal : gruCell Wr Wz Wh x h j
        = (1 - updateGate Wz x h j) * h j
          + updateGate Wz x h j * gruCandidate Wr Wh x h j := rfl
    rw [hgoal]
    constructor
    · nlinarith [mul_nonneg (by linarith : (0:ℝ) ≤ 1 - updateGate Wz x h j)
        (by linarith : (0:ℝ) ≤ 1 + h j),
        mul_pos hz1 (by linarith : (0:ℝ) < 1 + gruCandidate Wr Wh x h j)]
    · nlinarith [mul_nonneg (by linarith : (0:ℝ) ≤ 1 - updateGate Wz x h j)
        (by linarith : (0:ℝ) ≤ 1 - h j),
        mul_pos hz1 (by linarith : (0:ℝ) < 1 - gruCandidate Wr Wh x h j)]

theorem gate_and_state_ranges_witness :
    (∀ m : Fin 1, |(fun _ : Fin 1 => (0:ℝ)) m| ≤ 1)
    ∧ (-1 < @gruCell 1 1 ⟨fun _ _ => 0, fun _ => 0⟩ ⟨fun _ _ => 0, fun _ => 0⟩
        ⟨fun _ _ => 0, fun _ => 0⟩ (fun _ => 0) (fun _ => 0) 0
      ∧ @gruCell 1 1 ⟨fun _ _ => 0, fun _ => 0⟩ ⟨fun _ _ => 0, fun _ => 0⟩
        ⟨fun _ _ => 0, fun _ => 0⟩ (fun _ => 0) (fun _ => 0) 0 < 1) :=
  ⟨fun _ => by norm_num,
    (@gate_and_state_ranges 1 1 ⟨fun _ _ => 0, fun _ => 0⟩
      ⟨fun _ _ => 0, fun _ => 0⟩ ⟨fun _ _ => 0, fun _ => 0⟩
      ⟨fun _ _ => 0, fun _ => 0⟩ ⟨fun _ _ => 0, fun _ => 0⟩
      ⟨fun _ _ => 0, fun _ => 0⟩ ⟨fun _ _ => 0, fun _ => 0⟩
      (fun _ => 0) (fun _ => 0) (fun _ => 0) 0).2.2.2.2.2.2.2.2
      (fun _ => by norm_num)⟩

/-- Modelled from the spec: shape-checked invocation of the GRU cell on
plain list vectors.  The dimensions I and H are fixed at construction; an
invocation whose input or state vector has any other length fails at the
point of invocation (returns none), never silently broadcasting or
truncating (spec.md section 7). -/
noncomputable def gruCellChecked (I H : ℕ) (Wr Wz Wh : GateW I H)
    (x h : List ℝ) : Option (List ℝ) :=
  if hx : x.length = I then
    if hh : h.length = H then
      some (List.ofFn (gruCell Wr Wz Wh
        (fun i => x.get (Fin.cast hx.symm i))
        (fun j => h.get (Fin.cast hh.symm j))))
    else none
  else none

/-- Modelled from the spec: shape-checked invocation of the LSTM cell on
plain list vectors, returning the pair (h_t, c_t) when the input, hidden
and cell vectors match the constructed dimensions and failing otherwise. -/
noncomputable def lstmCellChecked (I H : ℕ) (Wf Wi Wo Wc : GateW I H)
    (x h c : List ℝ) : Option (List ℝ × List ℝ) :=
  if hx : x.length = I then
    if hh : h.length = H then
      if hc : c.length = H then
        some (List.ofFn ((lstmCell Wf Wi Wo Wc
            (fun i => x.get (Fin.cast hx.symm i))
            (fun j => h.get (Fin.cast hh.symm j))
            (fun j => c.get (Fin.cast hc.symm j))).1),
          List.ofFn ((lstmCell Wf Wi Wo Wc
            (fun i => x.get (Fin.cast hx.symm i))
            (fun j => h.get (Fin.cast hh.symm j))
            (fun j => c.get (Fin.cast hc.symm j))).2))
      else none
    else none
  else none

/-- Modelled from the spec: the sequence driver (spec.md 4.3) — iterate the
GRU cell left-to-right across a sequence of input vectors, threading the
hidden state forward; any shape failure aborts the run. -/
noncomputable def runGRUChecked (I H : ℕ) (Wr Wz Wh : GateW I H) :
    List (List ℝ) → List ℝ → Option (List ℝ)
  | [], h0 => some h0
  | x :: xs, h0 =>
    match gruCellChecked I H Wr Wz Wh x h0 with
    | some h1 => runGRUChecked I H Wr Wz Wh xs h1
    | none => none

/-- C5: invoking either cell with an input or state vector whose length
does not match the dimensions fixed at construction fails immediately
(returns none, no output); matching lengths always produce an output — so
dimension mismatch is the only failure class and nothing is silently
broadcast or truncated. -/
theorem shape_mismatch_fails (I H : ℕ) (Wf Wi Wo Wc Wr Wz Wh : GateW I H)
    (x h c : List ℝ) :
    (gruCellChecked I H Wr Wz Wh x h = none
      ↔ ¬ (x.length = I ∧ h.length = H))
    ∧ (lstmCellChecked I H Wf Wi Wo Wc x h c = none
      ↔ ¬ (x.length = I ∧ h.length = H ∧ c.length = H)) := by
  constructor
  · unfold gruCellChecked
    split_ifs with h1 h2 <;> simp_all
  · unfold lstmCellChecked
    split_ifs with h1 h2 h3 <;> simp_all

theorem gruCellChecked_some_length (I H : ℕ) (Wr Wz Wh : GateW I H)
    (x h v : List ℝ) (hv : gruCellChecked I H Wr Wz Wh x h = some v) :
    v.length = H := by
  unfold gruCellChecked at hv
  split_ifs at hv with h1 h2
  obtain rfl := Option.some.inj hv
  simp

/-- C8: hidden-state (and, for LSTM, cell-state) dimensionality is an
invariant of a run — every successful cell invocation returns state
vector(s) of exactly the dimensionality H fixed at construction, and
threading the state through a whole sequence with the driver keeps the
hidden state at dimensionality H at every time step. -/
theorem state_dimension_invariant :
    (∀ (I H : ℕ) (Wr Wz Wh : GateW I H) (x h v : List ℝ),
        gruCellChecked I H Wr Wz Wh x h = some v → v.length = H)
    ∧ (∀ (I H : ℕ) (Wf Wi Wo Wc : GateW I H) (x h c : List ℝ)
        (p : List ℝ × List ℝ),
        lstmCellChecked I H Wf Wi Wo Wc x h c = some p →
          p.1.length = H ∧ p.2.length = H)
    ∧ (∀ (I H : ℕ) (Wr Wz Wh : GateW I H) (xs : List (List ℝ)) (h0 v : List ℝ),
        h0.length = H → runGRUChecked I H Wr Wz Wh xs h0 = some v →
          v.length = H) := by
  refine ⟨fun I H Wr Wz Wh x h v hv =>
    gruCellChecked_some_length I H Wr Wz Wh x h v hv, ?_, ?_⟩
  · intro I H Wf Wi Wo Wc x h c p hp
    unfold lstmCellChecked at hp
    split_ifs at hp with h1 h2 h3
    obtain rfl := Option.some.inj hp
    simp
  · intro I H Wr Wz Wh xs
    induction xs with
    | nil =>
      intro h0 v hlen hv
      obtain rfl := Option.some.inj hv
      exact hlen
    | cons y ys ih =>
      intro h0 v hlen hv
      unfold runGRUChecked at hv
      rcases hcell : gruCellChecked I H Wr Wz Wh y h0 with _ | h1
      · rw [hcell] at hv
        exact absurd hv (by simp)
      · rw [hcell] at hv
        exact ih h1 v (gruCellChecked_some_length I H Wr Wz Wh y h0 h1 hcell) hv

theorem state_dimension_invariant_witness :
    (gruCellChecked 1 1 ⟨fun _ _ => 0, fun _ => 0⟩ ⟨fun _ _ => 0, fun _ => 0⟩
        ⟨fun _ _ => 0, fun _ => 0⟩ [0] [0] = some [0]
      ∧ ([0] : List ℝ).length = 1)
    ∧ (([0] : List ℝ).length = 1
      ∧ runGRUChecked 1 1 ⟨fun _ _ => 0, fun _ => 0⟩ ⟨fun _ _ => 0, fun _ => 0⟩
        ⟨fun _ _ => 0, fun _ => 0⟩ [[0]] [0] = some [0]
      ∧ ([0] : List ℝ).length = 1) := by
  have hcell : gruCellChecked 1 1 ⟨fun _ _ => 0, fun _ => 0⟩
      ⟨fun _ _ => 0, fun _ => 0⟩ ⟨fun _ _ => 0, fun _ => 0⟩ [0] [0]
      = some [0] := by
    simp [gruCellChecked, gruCell, gruStateUpdate, updateGate, gruCandidate,
      resetGate, affinePre, sigmoid, List.ofFn_succ]
  have hrun : runGRUChecked 1 1 ⟨fun _ _ => 0, fun _ => 0⟩
      ⟨fun _ _ => 0, fun _ => 0⟩ ⟨fun _ _ => 0, fun _ => 0⟩ [[0]] [0]
      = some [0] := by
    unfold runGRUChecked
    rw [hcell]
    unfold runGRUChecked
    rfl
  exact ⟨⟨hcell, state_dimension_invariant.1 1 1 _ _ _ [0] [0] [0] hcell⟩,
    ⟨rfl, hrun, state_dimension_invariant.2.2 1 1 _ _ _ [[0]] [0] [0] rfl hrun⟩⟩

/-- Embedded from demo.ipynb (binary-counting task): SEQUENCE_LENGTH = 20. -/
def SEQUENCE_LENGTH : ℕ := 20

/-- Embedded from demo.ipynb: a generated sequence has entries drawn by
torch.randint(0, 2, ·), i.e. each entry is 0 or 1. -/
def isBinarySeq (s : List ℕ) : Prop := ∀ e ∈ s, e = 0 ∨ e = 1

/-- Embedded from demo.ipynb: the target of one sequence is
torch.sum(X, dim=1) — the sum of its entries along the time dimension. -/
def binaryTarget (s : List ℕ) : ℕ := s.sum

theorem binary_sum_eq_count (s : List ℕ) (hs : isBinarySeq s) :
    s.sum = s.count 1 := by
  induction s with
  | nil => rfl
  | cons a t ih =>
    have ha := hs a (List.mem_cons_self a t)
    have ht : isBinarySeq t := fun e he => hs e (List.mem_cons_of_mem a he)
    rcases ha with rfl | rfl <;> simp [List.count_cons, ih ht, add_comm]

theorem binary_sum_le_length (s : List ℕ) (hs : isBinarySeq s) :
    s.sum ≤ s.length := by
  induction s with
  | nil => simp
  | cons a t ih =>
    have ha := hs a (List.mem_cons_self a t)
    have ht : isBinarySeq t := fun e he => hs e (List.mem_cons_of_mem a he)
    have h1 : a ≤ 1 := by rcases ha with rfl | rfl <;> simp
    have h2 := ih ht
    simp only [List.sum_cons, List.length_cons]
    omega

/-- C9: for every binary-counting sequence whose entries are drawn from
{0, 1}, the target torch.sum(X, dim=1) equals exactly the number of ones in
the sequence, and for the generated sequences of length SEQUENCE_LENGTH = 20
every target lies between 0 and 20 inclusive. -/
theorem binary_count_target (s : List ℕ) (hs : isBinarySeq s) :
    binaryTarget s = s.count 1
    ∧ (s.length = SEQUENCE_LENGTH → binaryTarget s ≤ SEQUENCE_LENGTH) :=
  ⟨binary_sum_eq_count s hs,
    fun hlen => hlen ▸ binary_sum_le_length s hs⟩

theorem binary_count_target_witness :
    isBinarySeq [1, 0, 1, 1, 0, 0, 1, 0, 1, 1, 0, 1, 0, 0, 1, 1, 1, 0, 0, 1]
    ∧ (binaryTarget [1, 0, 1, 1, 0, 0, 1, 0, 1, 1, 0, 1, 0, 0, 1, 1, 1, 0, 0, 1]
        = List.count 1 [1, 0, 1, 1, 0, 0, 1, 0, 1, 1, 0, 1, 0, 0, 1, 1, 1, 0, 0, 1]
      ∧ (List.length [1, 0, 1, 1, 0, 0, 1, 0, 1, 1, 0, 1, 0, 0, 1, 1, 1, 0, 0, 1]
          = SEQUENCE_LENGTH →
        binaryTarget [1, 0, 1, 1, 0, 0, 1, 0, 1, 1, 0, 1, 0, 0, 1, 1, 1, 0, 0, 1]
          ≤ SEQUENCE_LENGTH)) :=
  ⟨by unfold isBinarySeq; decide,
    binary_count_target [1, 0, 1, 1, 0, 0, 1, 0, 1, 1, 0, 1, 0, 0, 1, 1, 1, 0, 0, 1]
      (by unfold isBinarySeq; decide)⟩

/-- Embedded from demo.ipynb (sine-wave task): the signal
y = torch.sin(x * π * 2 / 40) sampled at integer points x = 0, …, 799. -/
noncomputable def sineSignal (n : ℕ) : ℝ := Real.sin (n * (Real.pi * 2 / 40))

/-- Embedded from demo.ipynb: window_size = 40; the last 40 points y[-40:]
(indices 760…799) are held out, and the reported test loss compares the
autoregressive predictions with y_train[-window_size:] (indices 720…759). -/
def windowSize : ℕ := 40

/-- Embedded from demo.ipynb: torch.nn.MSELoss between two windows of
length windowSize = 40 — the mean of the squared differences. -/
noncomputable def mseLoss (p q : Fin 40 → ℝ) : ℝ := (∑ k, (p k - q k) ^ 2) / 40

/-- C10: the signal sin(x·2π/40) sampled at integer x has exact period 40,
so the held-out segment y[-40:] (indices 760…) equals elementwise the final
training segment y_train[-40:] (indices 720…); consequently the reported
test loss, computed against y_train[-window_size:] rather than y_test,
equals the mean squared error against the true continuation. -/
theorem sine_period_and_test_loss :
    (∀ n : ℕ, sineSignal (n + 40) = sineSignal n)
    ∧ (∀ k : Fin 40, sineSignal (760 + (k : ℕ)) = sineSignal (720 + (k : ℕ)))
    ∧ (∀ p : Fin 40 → ℝ,
        mseLoss p (fun k => sineSignal (720 + (k : ℕ)))
          = mseLoss p (fun k => sineSignal (760 + (k : ℕ)))) := by
  have hper : ∀ n : ℕ, sineSignal (n + 40) = sineSignal n := by
    intro n
    unfold sineSignal
    have harg : ((n + 40 : ℕ) : ℝ) * (Real.pi * 2 / 40)
        = (n : ℝ) * (Real.pi * 2 / 40) + 2 * Real.pi := by
      push_cast
      ring
    rw [harg, Real.sin_add_two_pi]
  have hseg : ∀ k : Fin 40, sineSignal (760 + (k : ℕ))
      = sineSignal (720 + (k : ℕ)) := by
    intro k
    have hidx : 760 + (k : ℕ) = (720 + (k : ℕ)) + 40 := by omega
    rw [hidx, hper]
  refine ⟨hper, hseg, ?_⟩
  intro p
  unfold mseLoss
  simp only [hseg]

end RnnExploration
